import Mathlib

set_option maxHeartbeats 1000000

attribute [local semireducible] Rat.sub Rat.add Rat.mul Rat.inv

/- Shallow embedding of the core of a-goyer/ore_algebra (files
   src/ore_algebra/analytic/polynomial_approximation.py and
   src/ore_algebra/analytic/function.py).

   Real balls (arb numbers) are modelled as exact midpoint-radius pairs of
   rationals; the arb operations used by the source (addition, subtraction,
   multiplication, absolute value, division, add_error, shifting) are given
   their exact interval semantics.  Complex balls (acb numbers) are pairs of
   real balls, one for the real part and one for the imaginary part, as in
   the acb type used through Sage.  Polynomials with ball coefficients are
   lists of balls in ascending degree order. -/

structure Ball where
  c : ℚ
  r : ℚ
deriving DecidableEq, Repr

namespace Ball

def zero : Ball := ⟨0, 0⟩

/-- Lower end of the interval represented by the ball. -/
def lower (b : Ball) : ℚ := b.c - b.r

/-- Upper end of the interval represented by the ball. -/
def upper (b : Ball) : ℚ := b.c + b.r

/-- Magnitude bound of the ball (used by add_error). -/
def mag (b : Ball) : ℚ := |b.c| + b.r

def add (a b : Ball) : Ball := ⟨a.c + b.c, a.r + b.r⟩

def sub (a b : Ball) : Ball := ⟨a.c - b.c, a.r + b.r⟩

/-- arb absolute value: absolute value of the midpoint, same radius. -/
def abs (b : Ball) : Ball := ⟨|b.c|, b.r⟩

def mul (a b : Ball) : Ball :=
  ⟨a.c * b.c, |a.c| * b.r + |b.c| * a.r + a.r * b.r⟩

/-- Exact interval inverse of a ball not containing zero.  The branch for a
ball containing zero (where arb would produce an infinite enclosure, never
exercised in the developments below) returns the zero ball. -/
def inv (b : Ball) : Ball :=
  if b.r < |b.c| then ⟨b.c / (b.c ^ 2 - b.r ^ 2), b.r / (b.c ^ 2 - b.r ^ 2)⟩
  else zero

def div (a b : Ball) : Ball := mul a (inv b)

/-- Right shift by one bit, the operation written dist >> 1 in the source. -/
def halve (b : Ball) : Ball := ⟨b.c / 2, b.r / 2⟩

/-- arb add_error: inflate the radius by the magnitude bound of err. -/
def addError (b err : Ball) : Ball := ⟨b.c, b.r + mag err⟩

def isZero (b : Ball) : Bool := b == zero

end Ball

/-- Modelled from the spec: the module ore_algebra.analytic.safe_cmp is not
among the sources, only its callers are.  The spec requires conservative
interval comparisons that return true only when provably true.  safeLt a b
holds exactly when every value enclosed by a is below every value of b. -/
def safeLt (a b : Ball) : Bool := decide (Ball.upper a < Ball.lower b)

/-- Modelled from the spec: conservative non-strict comparison, see safeLt. -/
def safeLe (a b : Ball) : Bool := decide (Ball.upper a ≤ Ball.lower b)

/-- Modelled from the spec: conservative comparison, see safeLt. -/
def safeGe (a b : Ball) : Bool := decide (Ball.upper b ≤ Ball.lower a)

/-- Modelled from the spec: conservative comparison, see safeLt. -/
def safeGt (a b : Ball) : Bool := decide (Ball.upper b < Ball.lower a)

/-- Complex ball: one real ball for the real part, one for the imaginary
part, following the acb representation used by the source. -/
structure CBall where
  re : Ball
  im : Ball
deriving DecidableEq, Repr

namespace CBall

/-- Coercion of a real ball into the complex ball field. -/
def ofReal (b : Ball) : CBall := ⟨b, Ball.zero⟩

/-- acb add_error: the magnitude bound of err is added to the radius of both
the real and the imaginary part. -/
def addError (z : CBall) (err : Ball) : CBall :=
  ⟨Ball.addError z.re err, Ball.addError z.im err⟩

end CBall

/-- Polynomial with real ball coefficients, ascending degree order. -/
abbrev RPoly := List Ball

/-- Coefficient of degree i (zero beyond the length, as in Sage). -/
def coeff (p : RPoly) (i : ℕ) : Ball := p.getD i Ball.zero

/-- Coefficient of degree i of a complex ball polynomial. -/
def ccoeff (p : List CBall) (i : ℕ) : CBall := p.getD i (CBall.ofReal Ball.zero)

/-- Degree of a ball polynomial: index of the last coefficient that is not
the exact zero ball (0 for the zero polynomial). -/
def natDegree (p : RPoly) : ℕ := (p.reverse.dropWhile Ball.isZero).length - 1

/-- Leading coefficient: last coefficient that is not the exact zero ball. -/
def leadingCoeff (p : RPoly) : Ball :=
  (p.reverse.dropWhile Ball.isZero).headD Ball.zero

/-- Coefficientwise difference of two coefficient lists (zero padding). -/
def polSub (p q : RPoly) : RPoly :=
  (List.range (max p.length q.length)).map (fun i => Ball.sub (coeff p i) (coeff q i))

/-- The descending index list n-1, n-2, ..., 0, matching the iteration
xrange(d, -1, -1) of the source for n = d + 1. -/
def downFrom : ℕ → List ℕ
  | 0 => []
  | n + 1 => n :: downFrom n

/-- The descending segment n-1, n-2, ..., b (empty when n ≤ b). -/
def downSeg : ℕ → ℕ → List ℕ
  | 0, _ => []
  | n + 1, b => if b ≤ n then n :: downSeg n b else []

/-- One step of the truncation loop of taylor_economization: tmp_bound is the
running bound plus the absolute value of the coefficient of the original pol
at index i; when it is certifiably below eps the coefficient of index i is
replaced by an exact zero and the bound is updated. -/
def taylorStep (pol : RPoly) (eps : Ball) (st : Ball × RPoly) (i : ℕ) : Ball × RPoly :=
  let tmp := Ball.add st.1 (Ball.abs (coeff pol i))
  if safeLt tmp eps then (tmp, st.2.set i Ball.zero) else st

/-- taylor_economization (polynomial_approximation.py, lines 32-70): drop
coefficients from the highest degree down while the accumulated bound stays
certifiably below eps, then cast the constant coefficient to the complex
field with the accumulated bound added as an error, and return the result
over the complex ball field. -/
def taylorEconomization (pol : RPoly) (eps : Ball) : List CBall :=
  let st := (downFrom (natDegree pol + 1)).foldl (taylorStep pol eps) (Ball.zero, pol)
  CBall.addError (CBall.ofReal (coeff st.2 0)) st.1 :: st.2.tail.map CBall.ofReal

/-- Chebyshev polynomial of degree k over the ball ring, generated by the
three-term recurrence of chebyshev_polynomials. -/
def chebT : ℕ → RPoly
  | 0 => [⟨1, 0⟩]
  | 1 => [⟨0, 0⟩, ⟨1, 0⟩]
  | k + 2 => polSub (Ball.zero :: (chebT (k + 1)).map (Ball.mul ⟨2, 0⟩)) (chebT k)

/-- chebyshev_polynomials (polynomial_approximation.py, lines 72-96): the
list T[0], ..., T[n-1]. -/
def chebyshevPolynomials (n : ℕ) : List RPoly := (List.range n).map chebT

/-- One step of the loop of general_economization at index k: c is the
coefficient of the current polynomial at k divided by the leading coefficient
of E[k]; when the updated bound is certifiably below eps, the current
polynomial is replaced by newpol[:k] - c*E[k][:k]. -/
def econStep (ecopol : List RPoly) (eps : Ball) (st : Ball × RPoly) (k : ℕ) : Ball × RPoly :=
  let c := Ball.div (coeff st.2 k) (leadingCoeff (ecopol.getD k []))
  let tmp := Ball.add st.1 (Ball.abs c)
  if safeLt tmp eps then
    (tmp, polSub (st.2.take k) (((ecopol.getD k []).take k).map (Ball.mul c)))
  else st

/-- general_economization (polynomial_approximation.py, lines 98-134). -/
def generalEconomization (ecopols : ℕ → List RPoly) (pol : RPoly) (eps : Ball) : RPoly :=
  let ecopol := ecopols (natDegree pol + 1)
  let st := (downFrom (natDegree pol + 1)).foldl (econStep ecopol eps) (Ball.zero, pol)
  Ball.addError (coeff st.2 0) st.1 :: st.2.tail

/-- chebyshev_economization (polynomial_approximation.py, lines 136-155). -/
def chebyshevEconomization (pol : RPoly) (eps : Ball) : RPoly :=
  generalEconomization chebyshevPolynomials pol eps

/-- Value at x of the midpoint polynomial of a ball polynomial. -/
def evalMid : RPoly → ℝ → ℝ
  | [], _ => 0
  | b :: t, x => (b.c : ℝ) + x * evalMid t x

/-- Value at x of the radius polynomial of a ball polynomial, with the
absolute value of x, so that it bounds the radius of the interval evaluation
of the ball polynomial at any point of modulus at most x. -/
def evalRad : RPoly → ℝ → ℝ
  | [], _ => 0
  | b :: t, x => (b.r : ℝ) + |x| * evalRad t x

/-- The value y lies in the interval evaluation of the ball polynomial p at
the real point x. -/
def containsAt (p : RPoly) (x y : ℝ) : Prop := |y - evalMid p x| ≤ evalRad p x

/-- Error-budget dataflow of doit (polynomial_approximation.py, lines
160-185): the analytic-continuation context receives eps/2, and eps1, the
bound passed both to series_sum_ordinary (as AbsoluteError(eps1)) and to the
economization postprocess, is IR(eps)/2. -/
structure DoitBudgets where
  ctxEps : Ball
  eps1 : Ball
deriving DecidableEq, Repr

def doitBudgets (eps : Ball) : DoitBudgets :=
  ⟨Ball.halve eps, Ball.halve eps⟩

/- ------------------------------------------------------------------ -/
/- Disk locator (function.py, DFiniteFunction._disk, lines 133-167).

   The point collaborators are external to the sources: dist_to_sing and
   approx_abs_real live in ore_algebra.analytic.path (spec section 6).  They
   are modelled as fields of an environment: distToSing maps a candidate
   center to the certified ball enclosing the distance to the nearest
   singularity, and approxPt e is the ball approximation of the point
   computed by pt.approx_abs_real(-e), whose midpoint (squash) supplies the
   mantissa.  The working-precision bookkeeping of the source (choice of the
   field F) is idealized away by computing exactly over the rationals. -/

structure DiskEnv where
  pt : ℚ
  distToSing : ℚ → Ball
  approxPt : ℤ → Ball

/-- The radius 2^e as an exact rational. -/
def qpow2 (e : ℤ) : ℚ := 2 ^ e

/-- Candidate mantissa and center at exponent e: round the midpoint of the
point approximation down to a multiple of 2^e and force the mantissa odd. -/
def diskCandidate (env : DiskEnv) (e : ℤ) : ℤ × ℚ :=
  let a := (env.approxPt e).c
  let m0 : ℤ := ⌊a / qpow2 e⌋
  let m : ℤ := if m0 % 2 = 0 then m0 + 1 else m0
  (m, (m : ℚ) * qpow2 e)

/-- Safety test of the candidate disk at exponent e: the certified distance
from the candidate center to the nearest singularity, halved, must be
certifiably at least the radius (safe_ge(dist >> 1, rad)). -/
def diskTest (env : DiskEnv) (e : ℤ) : Bool :=
  safeGe (Ball.halve (env.distToSing (diskCandidate env e).2)) ⟨qpow2 e, 0⟩

/-- The while-True loop of _disk: try the candidate at the current exponent,
accept on success, otherwise decrement the exponent.  The loop of the source
is unbounded; fuel makes the recursion structural, and the termination
theorem below shows some finite fuel suffices. -/
def diskLoop (env : DiskEnv) : ℕ → ℤ → Option ℤ
  | 0, _ => none
  | n + 1, e => if diskTest env e then some e else diskLoop env n (e - 1)

/-- _disk after the loop: recheck that the (possibly inflated) point is
certifiably contained in the accepted disk, and return the exact rational
center together with the radius; on an uncertifiable containment return
none (the None, None of the source). -/
def diskFind (env : DiskEnv) (fuel : ℕ) (expo0 : ℤ) : Option (ℚ × ℚ) :=
  match diskLoop env fuel expo0 with
  | none => none
  | some e =>
    let center := (diskCandidate env e).2
    let rad := qpow2 e
    let a := env.approxPt e
    let distToCenter : Ball := ⟨|a.c - center|, a.r⟩
    if safeLe distToCenter ⟨rad, 0⟩ then some (center, rad) else none

/- ------------------------------------------------------------------ -/
/- Cached evaluator (function.py, DFiniteFunction, lines 107-224). -/

/-- An initial-value vector cached at a path vertex.  The source stores the
first column of the continuation matrix and compares accuracies of the first
entries (known[0].accuracy() against val[0][0].accuracy()); acc models that
accuracy measure and vec the stored column of balls. -/
structure IniVec where
  acc : ℤ
  vec : List Ball
deriving DecidableEq, Repr

structure RealPolApprox where
  pol : RPoly
  prec : ℕ
deriving DecidableEq, Repr

/-- The mutable state of a DFiniteFunction: the two caches _inivecs and
_polys, as maps from vertices and disk centers. -/
structure FunState where
  inivecs : ℚ → Option IniVec
  polys : ℚ → Option RealPolApprox

set_option linter.unusedVariables false in
/-- The method _disk as seen from the object: it receives the full mutable
state of the DFiniteFunction instance but reads neither cache; its result
depends only on the point environment and the starting exponent derived
from max_rad. -/
def diskMethod (s : FunState) (env : DiskEnv) (fuel : ℕ) (expo0 : ℤ) :
    Option (ℚ × ℚ) :=
  diskFind env fuel expo0

/-- The merge loop of approx over the (vertex, value) pairs returned by the
analytic continuation: a pair is stored when no vector is cached at its
vertex or when its accuracy is strictly higher than the cached one. -/
def updateInivecs (m : ℚ → Option IniVec) (pairs : List (ℚ × IniVec)) :
    ℚ → Option IniVec :=
  pairs.foldl (fun mm p =>
    match mm p.1 with
    | none => fun q => if q = p.1 then some p.2 else mm q
    | some known =>
        if known.acc < p.2.acc then fun q => if q = p.1 then some p.2 else mm q
        else mm) m

/-- The recomputation condition of approx: approx is None or
approx.prec < prec. -/
def needsRecompute (polys : ℚ → Option RealPolApprox) (center : ℚ) (prec : ℕ) :
    Bool :=
  match polys center with
  | none => true
  | some a => decide (a.prec < prec)

/-- The value returned by approx: either the result of the direct
numerical_solution path (external collaborator), or an evaluation of a
polynomial approximation; tracking the polynomial used shows which cache
entry served the request. -/
inductive ApproxVal where
  | direct : ApproxVal
  | fromPoly : RPoly → ApproxVal
deriving DecidableEq, Repr

/-- Body of the recomputation branch of approx: the continuation pairs are
merged into _inivecs first, then polapprox.on_interval runs; if it raises,
the exception propagates while the object keeps the already-merged _inivecs
and the untouched _polys; on success the new polynomial is stored in _polys
under the disk center with the requested precision. -/
def approxRecompute (s : FunState) (center : ℚ) (prec : ℕ)
    (pairs : List (ℚ × IniVec)) (onInterval : Except Unit RPoly) :
    FunState × Except Unit ApproxVal :=
  let iv := updateInivecs s.inivecs pairs
  match onInterval with
  | Except.error u => (⟨iv, s.polys⟩, Except.error u)
  | Except.ok pol =>
      (⟨iv, fun q => if q = center then some ⟨pol, prec⟩ else s.polys q⟩,
       Except.ok (ApproxVal.fromPoly pol))

/-- DFiniteFunction.approx (function.py, lines 182-209).  Arguments beyond
the state: whether the point is real, the requested precision and the
max_prec setting, the disk center found by _disk (none when _disk failed,
which raises NotImplementedError), the continuation output, and the outcome
of the polynomial-approximation call. -/
def approx (s : FunState) (isReal : Bool) (prec maxPrec : ℕ)
    (diskCenter : Option ℚ) (pairs : List (ℚ × IniVec))
    (onInterval : Except Unit RPoly) : FunState × Except Unit ApproxVal :=
  if maxPrec ≤ prec ∨ isReal = false then (s, Except.ok ApproxVal.direct)
  else
    match diskCenter with
    | none => (s, Except.error ())
    | some center =>
      match s.polys center with
      | some a =>
          if a.prec < prec then approxRecompute s center prec pairs onInterval
          else (s, Except.ok (ApproxVal.fromPoly a.pol))
      | none => approxRecompute s center prec pairs onInterval

-- Concrete test inputs (exact ball coefficients).
def polC1 : RPoly := [⟨5, 0⟩, ⟨1/10, 0⟩, ⟨3, 0⟩]
def epsC1 : Ball := ⟨1/2, 0⟩

/-- A concrete point environment: the point 0, every certified singularity
distance equal to the exact ball 10, exact point approximations. -/
def env0 : DiskEnv := ⟨0, fun _ => ⟨10, 0⟩, fun _ => ⟨0, 0⟩⟩

def funState0 : FunState := ⟨fun _ => none, fun _ => none⟩

def ivW : IniVec := ⟨0, []⟩

example : natDegree polC1 = 2 := by decide
example : chebyshevPolynomials 3 =
    [[⟨1, 0⟩], [⟨0, 0⟩, ⟨1, 0⟩], [⟨-1, 0⟩, ⟨0, 0⟩, ⟨2, 0⟩]] := by decide
example : chebyshevEconomization polC1 epsC1 = [⟨5, 1/10⟩] := by decide
example : taylorEconomization polC1 epsC1 =
    [⟨⟨5, 1/10⟩, ⟨0, 1/10⟩⟩, CBall.ofReal ⟨0, 0⟩, CBall.ofReal ⟨3, 0⟩] := by decide
example : diskFind env0 1 0 = some (1, 1) := by decide
example : doitBudgets ⟨1, 0⟩ = ⟨⟨1/2, 0⟩, ⟨1/2, 0⟩⟩ := by decide

def polC9 : RPoly := [⟨1, 0⟩]

/-- C1: evaluating the source algorithm at a concrete input shows that
general_economization (through chebyshev_economization) is not
enclosure-sound.  On pol = 3x^2 + x/10 + 5 with exact ball coefficients and
eps = 1/2, the degree-2 term is rejected (3/2 is not below eps) but the
degree-1 term is then accepted, and the accepted step replaces the
polynomial by newpol[:1] - c*E[1][:1], silently discarding the still-present
degree-2 term.  The result is the constant ball 5 ± 1/10, and at the domain
point x = 1 it does not contain the value 8.1 of pol, contradicting the
guarantee stated by the claim and by the docstring of the function. -/
theorem C1_chebyshev_enclosure_violated :
    chebyshevEconomization polC1 epsC1 = [⟨5, 1/10⟩] ∧
    |(1 : ℝ)| ≤ 1 ∧
    ¬ containsAt (chebyshevEconomization polC1 epsC1) 1 (evalMid polC1 1) := by
  refine ⟨by decide, by norm_num, ?_⟩
  have h : chebyshevEconomization polC1 epsC1 = [Ball.mk 5 (1/10)] := by decide
  rw [h]
  simp only [containsAt, evalMid, evalRad, polC1, not_le]
  push_cast
  rw [abs_of_nonneg (by norm_num)]
  norm_num
  rw [abs_of_nonneg] <;> norm_num

/-- C4 counterexample: on pol = 3x^2 + x/10 + 5 with eps = 1/2, the scan of
taylor_economization rejects the degree-2 term, then keeps scanning and
drops the degree-1 term: the set of dropped degrees is {1}, which is not a
contiguous block of the highest degrees, and the dropped degree 1 is lower
than the first rejected degree 2. -/
theorem C4_drop_not_contiguous :
    ccoeff (taylorEconomization polC1 epsC1) 1 = CBall.ofReal Ball.zero ∧
    coeff polC1 1 = ⟨1/10, 0⟩ ∧
    Ball.isZero (coeff polC1 1) = false ∧
    ccoeff (taylorEconomization polC1 epsC1) 2 = CBall.ofReal ⟨3, 0⟩ ∧
    Ball.isZero (coeff polC1 2) = false := by decide

/-- C5 counterexample: at eps = 1 the budget eps1 computed by doit equals
1/2, not the 1/4 stated by the claim. -/
theorem C5_eps1_not_quarter :
    doitBudgets ⟨1, 0⟩ = ⟨⟨1/2, 0⟩, ⟨1/2, 0⟩⟩ ∧
    (doitBudgets ⟨1, 0⟩).eps1 ≠ ⟨1/4, 0⟩ := by decide

/-- C5 amended: the split is fixed and non-adaptive, the continuation
context receives eps/2, and eps1, passed to summation and economization,
also equals eps/2 (each budget is the halved input bound). -/
theorem C5_fixed_half_split (eps : Ball) :
    (doitBudgets eps).ctxEps = Ball.halve eps ∧
    (doitBudgets eps).eps1 = Ball.halve eps ∧
    Ball.upper (doitBudgets eps).eps1 = Ball.upper eps / 2 ∧
    Ball.lower (doitBudgets eps).ctxEps = Ball.lower eps / 2 := by
  refine ⟨rfl, rfl, ?_, ?_⟩ <;>
    simp only [doitBudgets, Ball.halve, Ball.upper, Ball.lower] <;> ring

/-- C9 counterexample: on the real input pol = 1 with eps = 1/2 nothing is
dropped, the accumulated bound is the exact zero ball, and the constant
coefficient of the result has imaginary part with radius exactly 0: a real
input does not always yield a nonzero imaginary error ball. -/
theorem C9_zero_imag_error :
    taylorEconomization polC9 epsC1 = [⟨⟨1, 0⟩, ⟨0, 0⟩⟩] ∧
    (ccoeff (taylorEconomization polC9 epsC1) 0).im.r = 0 := by decide

/-- C7 counterexample: when the polynomial-approximation step fails after
the analytic continuation has returned, the failed approx call leaves the
freshly merged vector in _inivecs (while _polys stays untouched and the
error propagates): the caches do not roll back to their state before the
failed call. -/
theorem C7_inivecs_survive_failure :
    (approx funState0 true 1 10 (some 0) [(0, ivW)] (Except.error ())).2
      = Except.error () ∧
    (approx funState0 true 1 10 (some 0) [(0, ivW)] (Except.error ())).1.inivecs 0
      = some ivW ∧
    funState0.inivecs 0 = none ∧
    (approx funState0 true 1 10 (some 0) [(0, ivW)] (Except.error ())).1.polys 0
      = none := by
  refine ⟨rfl, ?_, rfl, rfl⟩
  rfl

/-- C8: the initial-vector cache is monotone in accuracy.  Whatever pairs
the continuation returns, a vector cached at a vertex is either kept
unchanged or replaced by a vector of strictly higher accuracy; it is never
overwritten by a vector of lower or equal accuracy. -/
theorem C8_inivec_monotone (m : ℚ → Option IniVec) (pairs : List (ℚ × IniVec))
    (v : ℚ) (w : IniVec) (h : m v = some w) :
    ∃ w2, updateInivecs m pairs v = some w2 ∧ (w2 = w ∨ w.acc < w2.acc) := by
  induction pairs generalizing m w with
  | nil => exact ⟨w, h, Or.inl rfl⟩
  | cons p rest ih =>
    rcases hmp : m p.1 with _ | known
    · have hne : v ≠ p.1 := by
        intro e; rw [e, hmp] at h; exact Option.noConfusion h
      have hrw : updateInivecs m (p :: rest) =
          updateInivecs (fun q => if q = p.1 then some p.2 else m q) rest := by
        simp [updateInivecs, hmp]
      rw [hrw]
      exact ih _ w (by simp [hne, h])
    · by_cases hacc : known.acc < p.2.acc
      · have hrw : updateInivecs m (p :: rest) =
            updateInivecs (fun q => if q = p.1 then some p.2 else m q) rest := by
          simp [updateInivecs, hmp, hacc]
        rw [hrw]
        by_cases hv : v = p.1
        · subst hv
          rw [hmp] at h
          obtain rfl : known = w := by injection h
          obtain ⟨w2, h2, h3⟩ :=
            ih (fun q => if q = p.1 then some p.2 else m q) p.2 (by simp)
          refine ⟨w2, h2, Or.inr ?_⟩
          rcases h3 with rfl | hlt
          · exact hacc
          · exact lt_trans hacc hlt
        · exact ih _ w (by simp [hv, h])
      · have hrw : updateInivecs m (p :: rest) = updateInivecs m rest := by
          simp [updateInivecs, hmp, hacc]
        rw [hrw]
        exact ih m w h

def mC8 : ℚ → Option IniVec := fun q => if q = 0 then some ⟨5, []⟩ else none

/-- Witness for C8 at a concrete cache and pair list. -/
theorem C8_inivec_monotone_w :
    ∃ w2, updateInivecs mC8 [(0, ⟨3, []⟩)] 0 = some w2 ∧
      (w2 = ⟨5, []⟩ ∨ (IniVec.mk 5 []).acc < w2.acc) :=
  C8_inivec_monotone mC8 [(0, ⟨3, []⟩)] 0 ⟨5, []⟩ (by decide)

/-- The caching branch of approx on a cache hit: stored precision already at
least the requested one, so the state is returned unchanged and the cached
polynomial is served. -/
theorem approx_hit (s : FunState) (prec maxPrec : ℕ) (c : ℚ)
    (pairs : List (ℚ × IniVec)) (oi : Except Unit RPoly) (a : RealPolApprox)
    (hp : prec < maxPrec) (hs : s.polys c = some a) (hle : ¬ a.prec < prec) :
    approx s true prec maxPrec (some c) pairs oi
      = (s, Except.ok (ApproxVal.fromPoly a.pol)) := by
  have hcond : ¬ (maxPrec ≤ prec ∨ true = false) := by
    simp only [Bool.true_eq_false, or_false]; omega
  unfold approx
  rw [if_neg hcond]
  simp [hs, hle]

/-- The caching branch of approx on a miss or an outdated entry: the call
reduces to the recomputation body. -/
theorem approx_miss (s : FunState) (prec maxPrec : ℕ) (c : ℚ)
    (pairs : List (ℚ × IniVec)) (oi : Except Unit RPoly)
    (hp : prec < maxPrec) (hr : needsRecompute s.polys c prec = true) :
    approx s true prec maxPrec (some c) pairs oi
      = approxRecompute s c prec pairs oi := by
  have hcond : ¬ (maxPrec ≤ prec ∨ true = false) := by
    simp only [Bool.true_eq_false, or_false]; omega
  unfold approx
  rw [if_neg hcond]
  rcases hsp : s.polys c with _ | a
  · simp [hsp]
  · have hlt : a.prec < prec := by
      unfold needsRecompute at hr
      rw [hsp] at hr
      exact of_decide_eq_true hr
    simp [hsp, hlt]

/-- No approx call changes the polynomial cache at a center other than the
disk center of the request. -/
theorem approx_polys_frame (s2 : FunState) (isR : Bool) (q mp : ℕ) (c2 x : ℚ)
    (pr : List (ℚ × IniVec)) (oi : Except Unit RPoly) (hx : x ≠ c2) :
    (approx s2 isR q mp (some c2) pr oi).1.polys x = s2.polys x := by
  unfold approx
  by_cases hcond : mp ≤ q ∨ isR = false
  · rw [if_pos hcond]
  · rw [if_neg hcond]
    rcases hsp : s2.polys c2 with _ | a
    · simp only [hsp]
      unfold approxRecompute
      rcases oi with u | pol
      · rfl
      · simp [hx]
    · simp only [hsp]
      by_cases hlt : a.prec < q
      · rw [if_pos hlt]
        unfold approxRecompute
        rcases oi with u | pol
        · rfl
        · simp [hx]
      · rw [if_neg hlt]

/-- A cached polynomial is never replaced unless the requested precision
strictly exceeds the stored one: below or at the stored precision, the
whole polynomial cache is returned unchanged. -/
theorem approx_no_replace (s2 : FunState) (q mp : ℕ) (c2 : ℚ)
    (pr : List (ℚ × IniVec)) (oi : Except Unit RPoly) (a : RealPolApprox)
    (hs : s2.polys c2 = some a) (hle : ¬ a.prec < q) :
    (approx s2 true q mp (some c2) pr oi).1.polys = s2.polys := by
  unfold approx
  by_cases hcond : mp ≤ q ∨ true = false
  · rw [if_pos hcond]
  · rw [if_neg hcond]
    simp [hs, hle]

/-- C7 amended: all errors of the polynomial-approximation step surface to
the caller and the polynomial cache _polys is never changed by a failed
call, but the _inivecs entries merged from the continuation output before
the failure are retained (they are not rolled back). -/
theorem C7_amended_polys_rollback (s : FunState) (center : ℚ)
    (prec maxPrec : ℕ) (pairs : List (ℚ × IniVec)) (u : Unit)
    (hp : prec < maxPrec)
    (hr : needsRecompute s.polys center prec = true) :
    approx s true prec maxPrec (some center) pairs (Except.error u)
      = (⟨updateInivecs s.inivecs pairs, s.polys⟩, Except.error u) := by
  rw [approx_miss s prec maxPrec center pairs (Except.error u) hp hr]
  rfl

/-- Witness for C7 amended at a concrete state. -/
theorem C7_amended_polys_rollback_w :
    approx funState0 true 1 10 (some 0) [(0, ivW)] (Except.error ())
      = (⟨updateInivecs funState0.inivecs [(0, ivW)], funState0.polys⟩,
         Except.error ()) :=
  C7_amended_polys_rollback funState0 0 1 10 [(0, ivW)] () (by omega) rfl

/-- C2: monotone reuse of the polynomial cache.  From a state with nothing
cached at the disk center, a request at precision p stores the new
polynomial with precision p; a second request at p1 < p is a cache hit (the
state is returned unchanged and the cached polynomial is served, the
recompute oracle is not consulted); a request at p2 > p recomputes and the
stored precision becomes p2; a cached entry is never replaced unless the
requested precision strictly exceeds the stored one; and no call ever
touches the entry of any other center. -/
theorem C2_poly_cache_monotone (s : FunState) (c : ℚ) (p p1 p2 maxPrec : ℕ)
    (pairs pairsB : List (ℚ × IniVec)) (polA polB : RPoly)
    (h0 : s.polys c = none) (hp : p < maxPrec) (hp2 : p2 < maxPrec)
    (h1 : p1 < p) (h2 : p < p2) :
    ((approx s true p maxPrec (some c) pairs (Except.ok polA)).1.polys c
        = some ⟨polA, p⟩) ∧
    (approx (approx s true p maxPrec (some c) pairs (Except.ok polA)).1 true p1
        maxPrec (some c) pairsB (Except.ok polB)
      = ((approx s true p maxPrec (some c) pairs (Except.ok polA)).1,
         Except.ok (ApproxVal.fromPoly polA))) ∧
    needsRecompute
        (approx s true p maxPrec (some c) pairs (Except.ok polA)).1.polys c p1
      = false ∧
    needsRecompute
        (approx s true p maxPrec (some c) pairs (Except.ok polA)).1.polys c p2
      = true ∧
    ((approx (approx s true p maxPrec (some c) pairs (Except.ok polA)).1 true p2
        maxPrec (some c) pairsB (Except.ok polB)).1.polys c = some ⟨polB, p2⟩) ∧
    (∀ (s2 : FunState) (c2 : ℚ) (q : ℕ) (pr : List (ℚ × IniVec))
        (oi : Except Unit RPoly) (a : RealPolApprox),
        s2.polys c2 = some a → ¬ a.prec < q →
        (approx s2 true q maxPrec (some c2) pr oi).1.polys = s2.polys) ∧
    (∀ (s2 : FunState) (isR : Bool) (q mp : ℕ) (c2 x : ℚ)
        (pr : List (ℚ × IniVec)) (oi : Except Unit RPoly),
        x ≠ c2 → (approx s2 isR q mp (some c2) pr oi).1.polys x = s2.polys x) := by
  have hs1 : approx s true p maxPrec (some c) pairs (Except.ok polA)
      = (⟨updateInivecs s.inivecs pairs,
          fun q => if q = c then some ⟨polA, p⟩ else s.polys q⟩,
         Except.ok (ApproxVal.fromPoly polA)) := by
    rw [approx_miss s p maxPrec c pairs (Except.ok polA) hp
      (by unfold needsRecompute; rw [h0])]
    rfl
  have hpolys : (approx s true p maxPrec (some c) pairs (Except.ok polA)).1.polys c
      = some ⟨polA, p⟩ := by
    rw [hs1]; simp
  have hrec2 : needsRecompute
      (approx s true p maxPrec (some c) pairs (Except.ok polA)).1.polys c p2
      = true := by
    unfold needsRecompute
    rw [hpolys]
    simp only [decide_eq_true_eq]
    omega
  refine ⟨hpolys, ?_, ?_, hrec2, ?_, ?_, ?_⟩
  · exact approx_hit _ p1 maxPrec c pairsB (Except.ok polB) ⟨polA, p⟩
      (lt_trans h1 hp) hpolys (by simp only []; omega)
  · unfold needsRecompute
    rw [hpolys]
    simp only [decide_eq_false_iff_not]
    omega
  · rw [approx_miss _ p2 maxPrec c pairsB (Except.ok polB) hp2 hrec2]
    unfold approxRecompute
    simp
  · exact fun s2 c2 q pr oi a hs hle =>
      approx_no_replace s2 q maxPrec c2 pr oi a hs hle
  · exact fun s2 isR q mp c2 x pr oi hx =>
      approx_polys_frame s2 isR q mp c2 x pr oi hx

/-- Witness for C2 at a concrete empty state and precisions 2, 1, 3. -/
theorem C2_poly_cache_monotone_w :
    (approx funState0 true 2 10 (some 0) [] (Except.ok ([] : RPoly))).1.polys 0
      = some ⟨[], 2⟩ ∧
    needsRecompute
        (approx funState0 true 2 10 (some 0) [] (Except.ok ([] : RPoly))).1.polys
        0 1 = false ∧
    needsRecompute
        (approx funState0 true 2 10 (some 0) [] (Except.ok ([] : RPoly))).1.polys
        0 3 = true :=
  have h := C2_poly_cache_monotone funState0 0 2 1 3 10 [] [] [] [⟨1, 0⟩]
    rfl (by omega) (by omega) (by omega) (by omega)
  ⟨h.1, h.2.2.1, h.2.2.2.1⟩

/- ------------------------------------------------------------------ -/
/- Theorems about the disk locator. -/

/-- The loop of _disk accepts the first exponent at or below the starting
one whose candidate passes the safety test. -/
theorem diskLoop_spec (env : DiskEnv) :
    ∀ (n : ℕ) (e0 e : ℤ), diskLoop env n e0 = some e →
      e ≤ e0 ∧ diskTest env e = true ∧
      ∀ e2, e < e2 → e2 ≤ e0 → diskTest env e2 = false := by
  intro n
  induction n with
  | zero => intro e0 e h; exact absurd h (by simp [diskLoop])
  | succ n ih =>
    intro e0 e h
    unfold diskLoop at h
    by_cases ht : diskTest env e0 = true
    · rw [if_pos ht] at h
      obtain rfl : e0 = e := by injection h
      exact ⟨le_refl _, ht,
        fun e2 h1 h2 => absurd (lt_of_lt_of_le h1 h2) (lt_irrefl _)⟩
    · rw [if_neg ht] at h
      obtain ⟨h1, h2, h3⟩ := ih (e0 - 1) e h
      refine ⟨by omega, h2, fun e2 hgt hle2 => ?_⟩
      rcases eq_or_lt_of_le hle2 with rfl | hlt
      · simp only [Bool.not_eq_true] at ht
        exact ht
      · exact h3 e2 hgt (by omega)

/-- The mantissa produced by the rounding step of _disk is odd, and the
candidate center is that mantissa times 2^e. -/
theorem diskCandidate_odd (env : DiskEnv) (e : ℤ) :
    Odd (diskCandidate env e).1 ∧
    (diskCandidate env e).2 = ((diskCandidate env e).1 : ℚ) * qpow2 e := by
  unfold diskCandidate
  refine ⟨?_, rfl⟩
  by_cases h : (⌊(env.approxPt e).c / qpow2 e⌋ % 2 = 0)
  · simp only [if_pos h]
    rw [Int.odd_iff]
    omega
  · simp only [if_neg h]
    rw [Int.odd_iff]
    omega

/-- Two distinct centers of the canonical packing at the same exponent are
at least two radii apart, so the corresponding disks meet in at most one
point. -/
theorem odd_centers_apart (e : ℤ) (m m2 : ℤ) (h1 : Odd m) (h2 : Odd m2)
    (hne : m2 ≠ m) :
    2 * qpow2 e ≤ |(m2 : ℚ) * qpow2 e - (m : ℚ) * qpow2 e| := by
  have hq : 0 < qpow2 e := by unfold qpow2; positivity
  have h3 : (2 : ℤ) ≤ |m2 - m| := by
    rcases h1 with ⟨a, ha⟩
    rcases h2 with ⟨b, hb⟩
    rcases abs_cases (m2 - m) with ⟨he, _⟩ | ⟨he, _⟩ <;> omega
  have h0 : (m2 : ℚ) * qpow2 e - (m : ℚ) * qpow2 e
      = ((m2 - m : ℤ) : ℚ) * qpow2 e := by
    push_cast
    ring
  rw [h0, abs_mul, abs_of_pos hq]
  have h5 : (2 : ℚ) ≤ |((m2 - m : ℤ) : ℚ)| := by
    rw [← Int.cast_abs]
    exact_mod_cast h3
  nlinarith

/-- C3: every disk accepted by _disk satisfies the packing and safety
invariants: the center is an odd mantissa m times 2^e where the radius is
exactly 2^e, the accepted candidate passes safe_ge(dist >> 1, rad) against
the certified singularity distance of its center, and any other packing
center at the same exponent is at least two radii away (disks of a fixed
exponent meet in at most one point).  The returned center is the exact
rational m·2^e by construction, mirroring the QQ(center) conversion of the
source. -/
theorem C3_disk_invariants (env : DiskEnv) (fuel : ℕ) (expo0 : ℤ) (c r : ℚ)
    (h : diskFind env fuel expo0 = some (c, r)) :
    ∃ (e : ℤ) (m : ℤ), Odd m ∧ c = (m : ℚ) * qpow2 e ∧ r = qpow2 e ∧
      safeGe (Ball.halve (env.distToSing c)) ⟨qpow2 e, 0⟩ = true ∧
      ∀ m2 : ℤ, Odd m2 → m2 ≠ m → 2 * r ≤ |(m2 : ℚ) * qpow2 e - c| := by
  unfold diskFind at h
  rcases hloop : diskLoop env fuel expo0 with _ | e
  · rw [hloop] at h
    exact absurd h (by simp)
  · rw [hloop] at h
    simp only [] at h
    obtain ⟨-, htest, -⟩ := diskLoop_spec env fuel expo0 e hloop
    split_ifs at h with hcont
    · obtain ⟨hodd, hcand⟩ := diskCandidate_odd env e
      rw [Option.some.injEq, Prod.mk.injEq] at h
      obtain ⟨hc1, hr1⟩ := h
      refine ⟨e, (diskCandidate env e).1, hodd, by rw [← hc1, hcand],
        hr1.symm, ?_, ?_⟩
      · rw [← hc1]
        unfold diskTest at htest
        exact htest
      · intro m2 hodd2 hne2
        rw [← hc1, ← hr1, hcand]
        exact odd_centers_apart e (diskCandidate env e).1 m2 hodd hodd2 hne2

/-- Witness for C3 on a concrete environment where the disk of center 1 and
radius 1 is accepted. -/
theorem C3_disk_invariants_w :
    ∃ (e : ℤ) (m : ℤ), Odd m ∧ (1 : ℚ) = (m : ℚ) * qpow2 e ∧
      (1 : ℚ) = qpow2 e ∧
      safeGe (Ball.halve (env0.distToSing 1)) ⟨qpow2 e, 0⟩ = true ∧
      ∀ m2 : ℤ, Odd m2 → m2 ≠ m → 2 * (1 : ℚ) ≤ |(m2 : ℚ) * qpow2 e - 1| :=
  C3_disk_invariants env0 1 0 1 1 (by decide)

/-- C6: _disk is deterministic and history-independent, and maximal.  The
method receives the mutable caches but its result is the same for any two
cache states; and when it returns a disk, the point is certifiably
contained in it and its exponent is the largest one at or below the
starting exponent (derived from max_rad) whose canonical candidate passes
the safety test. -/
theorem C6_disk_deterministic (s1 s2 : FunState) (env : DiskEnv) (fuel : ℕ)
    (expo0 : ℤ)
    (hc : ∀ e, |env.pt - (env.approxPt e).c| ≤ (env.approxPt e).r) :
    diskMethod s1 env fuel expo0 = diskMethod s2 env fuel expo0 ∧
    ∀ c r, diskMethod s1 env fuel expo0 = some (c, r) →
      |env.pt - c| ≤ r ∧
      ∃ e, e ≤ expo0 ∧ c = (diskCandidate env e).2 ∧ r = qpow2 e ∧
        diskTest env e = true ∧
        ∀ e2, e < e2 → e2 ≤ expo0 → diskTest env e2 = false := by
  refine ⟨rfl, fun c r h => ?_⟩
  unfold diskMethod diskFind at h
  rcases hloop : diskLoop env fuel expo0 with _ | e
  · rw [hloop] at h
    exact absurd h (by simp)
  · rw [hloop] at h
    simp only [] at h
    obtain ⟨hle, htest, hmax⟩ := diskLoop_spec env fuel expo0 e hloop
    split_ifs at h with hcont
    · rw [Option.some.injEq, Prod.mk.injEq] at h
      obtain ⟨hc1, hr1⟩ := h
      have hcertif := of_decide_eq_true hcont
      unfold Ball.upper Ball.lower at hcertif
      simp only [] at hcertif
      have htri := abs_sub_le env.pt (env.approxPt e).c c
      have hsym : |(env.approxPt e).c - c| = |(env.approxPt e).c - (diskCandidate env e).2| := by
        rw [hc1]
      refine ⟨?_, e, hle, hc1.symm, hr1.symm, htest, hmax⟩
      have hce := hc e
      rw [← hr1]
      rw [hc1] at hcertif
      linarith [hcertif, htri, hce]

/-- Witness for C6 on a concrete environment and two (equal) cache
states. -/
theorem C6_disk_deterministic_w :
    diskMethod funState0 env0 1 0 = diskMethod funState0 env0 1 0 ∧
    ∀ c r, diskMethod funState0 env0 1 0 = some (c, r) →
      |env0.pt - c| ≤ r ∧
      ∃ e, e ≤ 0 ∧ c = (diskCandidate env0 e).2 ∧ r = qpow2 e ∧
        diskTest env0 e = true ∧
        ∀ e2, e < e2 → e2 ≤ 0 → diskTest env0 e2 = false :=
  C6_disk_deterministic funState0 funState0 env0 1 0
    (fun e => by simp [env0])

/-- The candidate center at exponent e is within 2^e of the midpoint of the
point approximation: rounding to the floor multiple and forcing the
mantissa odd moves the center by at most one step of the grid. -/
theorem diskCandidate_close (env : DiskEnv) (e : ℤ) :
    |(diskCandidate env e).2 - (env.approxPt e).c| ≤ qpow2 e := by
  have hq : 0 < qpow2 e := by unfold qpow2; positivity
  unfold diskCandidate
  simp only []
  have hlow : (⌊(env.approxPt e).c / qpow2 e⌋ : ℚ) * qpow2 e ≤ (env.approxPt e).c := by
    have h1 := Int.floor_le ((env.approxPt e).c / qpow2 e)
    calc (⌊(env.approxPt e).c / qpow2 e⌋ : ℚ) * qpow2 e
        ≤ ((env.approxPt e).c / qpow2 e) * qpow2 e :=
          mul_le_mul_of_nonneg_right h1 (le_of_lt hq)
      _ = (env.approxPt e).c := div_mul_cancel₀ _ (ne_of_gt hq)
  have hhigh : (env.approxPt e).c < (⌊(env.approxPt e).c / qpow2 e⌋ + 1 : ℚ) * qpow2 e := by
    have h1 := Int.lt_floor_add_one ((env.approxPt e).c / qpow2 e)
    calc (env.approxPt e).c
        = ((env.approxPt e).c / qpow2 e) * qpow2 e :=
          (div_mul_cancel₀ _ (ne_of_gt hq)).symm
      _ < (⌊(env.approxPt e).c / qpow2 e⌋ + 1 : ℚ) * qpow2 e := by
          apply mul_lt_mul_of_pos_right _ hq
          exact h1
  by_cases hpar : (⌊(env.approxPt e).c / qpow2 e⌋ % 2 = 0)
  · rw [if_pos hpar]
    rw [abs_le]
    push_cast
    constructor <;> nlinarith
  · rw [if_neg hpar]
    rw [abs_le]
    constructor <;> nlinarith

/-- When 4·2^e is below the certified lower bound on the distance from the
point to the singularities, the candidate at exponent e passes the safety
test. -/
theorem diskTest_of_small (env : DiskEnv) (e : ℤ)
    (ha : (env.approxPt e).r ≤ qpow2 e)
    (hc : |env.pt - (env.approxPt e).c| ≤ (env.approxPt e).r)
    (hl : ∀ x, (env.distToSing env.pt).lower - |x - env.pt|
      ≤ (env.distToSing x).lower)
    (hsmall : 4 * qpow2 e ≤ (env.distToSing env.pt).lower) :
    diskTest env e = true := by
  unfold diskTest safeGe
  apply decide_eq_true
  have h1 := diskCandidate_close env e
  have h2 : |(diskCandidate env e).2 - env.pt| ≤ 2 * qpow2 e := by
    have htri := abs_sub_le (diskCandidate env e).2 (env.approxPt e).c env.pt
    have hsym : |(env.approxPt e).c - env.pt| = |env.pt - (env.approxPt e).c| :=
      abs_sub_comm _ _
    linarith
  have h3 := hl (diskCandidate env e).2
  unfold Ball.lower at h3 hsmall
  unfold Ball.upper Ball.lower Ball.halve
  simp only []
  linarith

/-- For any positive rational bound there is an exponent, below any given
starting exponent, with 4·2^e below the bound. -/
theorem exists_small_expo (d : ℚ) (hd : 0 < d) (e0 : ℤ) :
    ∃ e : ℤ, e ≤ e0 ∧ 4 * qpow2 e ≤ d := by
  obtain ⟨n, hn⟩ := exists_nat_gt (4 / d)
  refine ⟨min e0 (-(n : ℤ)), min_le_left _ _, ?_⟩
  have hp : (0 : ℚ) < 2 ^ n := by positivity
  have h1 : qpow2 (min e0 (-(n : ℤ))) ≤ qpow2 (-(n : ℤ)) := by
    unfold qpow2
    exact zpow_le_zpow_right₀ (by norm_num) (min_le_right _ _)
  have h2 : qpow2 (-(n : ℤ)) = ((2 : ℚ) ^ n)⁻¹ := by
    unfold qpow2
    rw [zpow_neg, zpow_natCast]
  have h3 : 4 / d < 2 ^ n :=
    lt_of_lt_of_le hn (by exact_mod_cast Nat.le_of_lt (Nat.lt_two_pow n))
  rw [div_lt_iff hd] at h3
  have h4 : 4 * ((2 : ℚ) ^ n)⁻¹ ≤ d := by
    rw [mul_inv_le_iff hp]
    nlinarith
  calc 4 * qpow2 (min e0 (-(n : ℤ))) ≤ 4 * qpow2 (-(n : ℤ)) := by linarith
    _ = 4 * ((2 : ℚ) ^ n)⁻¹ := by rw [h2]
    _ ≤ d := h4

/-- C10: termination of the candidate-search loop of _disk.  When the point
approximations are accurate (radius at most 2^e, midpoint within that
radius of the point), the certified distance from the point to the nearest
singularity has a positive lower bound, and that lower bound degrades at
most linearly when moving to a candidate center, the loop accepts a
candidate after finitely many decrements of the exponent, from any starting
exponent (in the source the starting exponent exists because the effective
maximum radius is finite and positive). -/
theorem C10_disk_loop_terminates (env : DiskEnv) (expo0 : ℤ)
    (ha : ∀ e, (env.approxPt e).r ≤ qpow2 e)
    (hc : ∀ e, |env.pt - (env.approxPt e).c| ≤ (env.approxPt e).r)
    (hd : 0 < (env.distToSing env.pt).lower)
    (hl : ∀ x, (env.distToSing env.pt).lower - |x - env.pt|
      ≤ (env.distToSing x).lower) :
    ∃ fuel e, diskLoop env fuel expo0 = some e := by
  obtain ⟨estar, hle, hsmall⟩ := exists_small_expo _ hd expo0
  have htest : diskTest env estar = true :=
    diskTest_of_small env estar (ha estar) (hc estar) hl hsmall
  suffices h : ∀ (n : ℕ) (e0 : ℤ), estar ≤ e0 → (e0 - estar).toNat ≤ n →
      ∃ e, diskLoop env (n + 1) e0 = some e by
    obtain ⟨e, he⟩ := h (expo0 - estar).toNat expo0 hle (le_refl _)
    exact ⟨_, e, he⟩
  intro n
  induction n with
  | zero =>
    intro e0 h1 h2
    obtain rfl : e0 = estar := by omega
    exact ⟨e0, by unfold diskLoop; rw [if_pos htest]⟩
  | succ n ih =>
    intro e0 h1 h2
    by_cases ht : diskTest env e0 = true
    · exact ⟨e0, by unfold diskLoop; rw [if_pos ht]⟩
    · have hne : e0 ≠ estar := fun hcontra => ht (hcontra ▸ htest)
      obtain ⟨e, he⟩ := ih (e0 - 1) (by omega) (by omega)
      exact ⟨e, by unfold diskLoop; rw [if_neg ht]; exact he⟩

/-- Witness for C10 on a concrete environment. -/
theorem C10_disk_loop_terminates_w :
    ∃ fuel e, diskLoop env0 fuel 0 = some e :=
  C10_disk_loop_terminates env0 0
    (fun e => by
      simp only [env0]
      unfold qpow2
      positivity)
    (fun e => by simp [env0])
    (by norm_num [env0, Ball.lower])
    (fun x => by
      simp only [env0, Ball.lower]
      norm_num)

/- ------------------------------------------------------------------ -/
/- Characterization of the taylor_economization scan. -/

/-- The running bound of the taylor scan along a list of indices.  It only
depends on the bound, never on the mutated coefficient list, because the
test of the source reads the coefficients of the original pol. -/
def taylorDeltaL (pol : RPoly) (eps : Ball) : Ball → List ℕ → Ball
  | d, [] => d
  | d, i :: l =>
      taylorDeltaL pol eps
        (if safeLt (Ball.add d (Ball.abs (coeff pol i))) eps
          then Ball.add d (Ball.abs (coeff pol i)) else d) l

theorem coeff_set_ne : ∀ (l : List Ball) (i j : ℕ) (v : Ball), i ≠ j →
    coeff (l.set i v) j = coeff l j
  | [], _, _, _, _ => rfl
  | _ :: _, 0, 0, _, h => absurd rfl h
  | _ :: _, 0, _ + 1, _, _ => rfl
  | _ :: _, _ + 1, 0, _, _ => rfl
  | _ :: t, i + 1, j + 1, v, h => coeff_set_ne t i j v (by omega)

theorem coeff_set_self : ∀ (l : List Ball) (i : ℕ) (v : Ball), i < l.length →
    coeff (l.set i v) i = v
  | [], _, _, h => absurd h (by simp)
  | _ :: _, 0, _, _ => rfl
  | _ :: t, i + 1, v, h => coeff_set_self t i v (by simpa using h)

theorem getD_map_ofReal : ∀ (l : List Ball) (j : ℕ),
    (l.map CBall.ofReal).getD j (CBall.ofReal Ball.zero)
      = CBall.ofReal (l.getD j Ball.zero)
  | [], _ => rfl
  | _ :: _, 0 => rfl
  | _ :: t, j + 1 => getD_map_ofReal t j

theorem coeff_tail : ∀ (l : List Ball) (j : ℕ), coeff l.tail j = coeff l (j + 1)
  | [], _ => rfl
  | _ :: _, _ => rfl

/-- The scan preserves the length of the coefficient list. -/
theorem length_foldl_taylorStep (pol : RPoly) (eps : Ball) :
    ∀ (l : List ℕ) (st : Ball × RPoly),
      ((l.foldl (taylorStep pol eps) st).2).length = st.2.length := by
  intro l
  induction l with
  | nil => intro st; rfl
  | cons i l ih =>
    intro st
    rw [List.foldl_cons, ih]
    unfold taylorStep
    by_cases h : safeLt (Ball.add st.1 (Ball.abs (coeff pol i))) eps = true
    · rw [if_pos h]
      simp [List.length_set]
    · rw [if_neg h]

/-- Scan steps at other indices do not change a coefficient. -/
theorem coeff_foldl_not_mem (pol : RPoly) (eps : Ball) :
    ∀ (l : List ℕ) (st : Ball × RPoly) (i : ℕ), i ∉ l →
      coeff ((l.foldl (taylorStep pol eps) st).2) i = coeff st.2 i := by
  intro l
  induction l with
  | nil => intro st i _; rfl
  | cons j l ih =>
    intro st i h
    rw [List.mem_cons, not_or] at h
    rw [List.foldl_cons, ih _ i h.2]
    unfold taylorStep
    by_cases ht : safeLt (Ball.add st.1 (Ball.abs (coeff pol j))) eps = true
    · rw [if_pos ht]
      exact coeff_set_ne st.2 j i Ball.zero (fun e => h.1 e.symm)
    · rw [if_neg ht]

/-- The bound component of the scan equals the abstract bound recursion. -/
theorem foldl_taylorStep_fst (pol : RPoly) (eps : Ball) :
    ∀ (l : List ℕ) (d : Ball) (p : RPoly),
      (l.foldl (taylorStep pol eps) (d, p)).1 = taylorDeltaL pol eps d l := by
  intro l
  induction l with
  | nil => intro d p; rfl
  | cons i l ih =>
    intro d p
    rw [List.foldl_cons]
    by_cases ht : safeLt (Ball.add d (Ball.abs (coeff pol i))) eps = true
    · have hstep : taylorStep pol eps (d, p) i
          = (Ball.add d (Ball.abs (coeff pol i)), p.set i Ball.zero) := by
        unfold taylorStep
        rw [if_pos ht]
      have hdelta : taylorDeltaL pol eps d (i :: l)
          = taylorDeltaL pol eps
              (if safeLt (Ball.add d (Ball.abs (coeff pol i))) eps
                then Ball.add d (Ball.abs (coeff pol i)) else d) l := rfl
      rw [hstep, hdelta, if_pos ht]
      exact ih _ _
    · have hstep : taylorStep pol eps (d, p) i = (d, p) := by
        unfold taylorStep
        rw [if_neg ht]
      have hdelta : taylorDeltaL pol eps d (i :: l)
          = taylorDeltaL pol eps
              (if safeLt (Ball.add d (Ball.abs (coeff pol i))) eps
                then Ball.add d (Ball.abs (coeff pol i)) else d) l := rfl
      rw [hstep, hdelta, if_neg ht]
      exact ih _ _

theorem downFrom_append : ∀ (n b : ℕ), b ≤ n →
    downFrom n = downSeg n b ++ downFrom b := by
  intro n
  induction n with
  | zero =>
    intro b hb
    obtain rfl : b = 0 := by omega
    rfl
  | succ n ih =>
    intro b hb
    by_cases hbe : b = n + 1
    · subst hbe
      unfold downSeg
      rw [if_neg (by omega)]
      rfl
    · have hble : b ≤ n := by omega
      show n :: downFrom n = downSeg (n + 1) b ++ downFrom b
      unfold downSeg
      rw [if_pos hble, List.cons_append, ih b hble]

theorem mem_downSeg : ∀ (n b j : ℕ), j ∈ downSeg n b → b ≤ j ∧ j < n := by
  intro n
  induction n with
  | zero =>
    intro b j h
    simp [downSeg] at h
  | succ n ih =>
    intro b j h
    unfold downSeg at h
    by_cases hb : b ≤ n
    · rw [if_pos hb] at h
      rcases List.mem_cons.mp h with rfl | h2
      · omega
      · have := ih b j h2
        omega
    · rw [if_neg hb] at h
      simp at h

theorem mem_downFrom : ∀ (n j : ℕ), j ∈ downFrom n → j < n := by
  intro n
  induction n with
  | zero =>
    intro j h
    simp [downFrom] at h
  | succ n ih =>
    intro j h
    rcases List.mem_cons.mp h with rfl | h2
    · omega
    · have := ih j h2
      omega

theorem natDegree_lt_length (pol : RPoly) (h : pol ≠ []) :
    natDegree pol < pol.length := by
  unfold natDegree
  have h1 : (pol.reverse.dropWhile Ball.isZero).length ≤ pol.length := by
    calc (pol.reverse.dropWhile Ball.isZero).length
        ≤ pol.reverse.length := (List.dropWhile_sublist _).length_le
      _ = pol.length := List.length_reverse _
  have h2 : 0 < pol.length := List.length_pos.mpr h
  omega

/-- The coefficient of index i after the full scan: it is zeroed exactly
when the test at its turn passes, with the bound accumulated over the
already-scanned higher indices, and is the original coefficient otherwise. -/
theorem taylor_scan_coeff (pol : RPoly) (eps : Ball) (i : ℕ)
    (h2 : i ≤ natDegree pol) (hlen : natDegree pol < pol.length) :
    coeff ((downFrom (natDegree pol + 1)).foldl (taylorStep pol eps)
        (Ball.zero, pol)).2 i
      = (if safeLt (Ball.add (taylorDeltaL pol eps Ball.zero
            (downSeg (natDegree pol + 1) (i + 1))) (Ball.abs (coeff pol i))) eps
          then Ball.zero else coeff pol i) := by
  have hsplit : downFrom (natDegree pol + 1)
      = downSeg (natDegree pol + 1) (i + 1) ++ (i :: downFrom i) := by
    rw [downFrom_append (natDegree pol + 1) (i + 1) (by omega)]
    rfl
  rw [hsplit, List.foldl_append, List.foldl_cons]
  rw [coeff_foldl_not_mem pol eps (downFrom i) _ i
    (fun hmem => absurd (mem_downFrom i i hmem) (lt_irrefl i))]
  set st1 := (downSeg (natDegree pol + 1) (i + 1)).foldl
    (taylorStep pol eps) (Ball.zero, pol) with hst1def
  have hst1c : coeff st1.2 i = coeff pol i :=
    coeff_foldl_not_mem pol eps _ _ i
      (fun hmem => by have := mem_downSeg _ _ _ hmem; omega)
  have hdelta : st1.1
      = taylorDeltaL pol eps Ball.zero (downSeg (natDegree pol + 1) (i + 1)) :=
    foldl_taylorStep_fst pol eps _ _ _
  have hlen1 : i < st1.2.length := by
    rw [hst1def, length_foldl_taylorStep]
    show i < pol.length
    omega
  rw [← hdelta]
  by_cases ht : safeLt (Ball.add st1.1 (Ball.abs (coeff pol i))) eps = true
  · have hstep : taylorStep pol eps st1 i
        = (Ball.add st1.1 (Ball.abs (coeff pol i)), st1.2.set i Ball.zero) := by
      simp only [taylorStep]
      rw [if_pos ht]
    rw [hstep, if_pos ht]
    exact coeff_set_self st1.2 i Ball.zero hlen1
  · have hstep : taylorStep pol eps st1 i = st1 := by
      simp only [taylorStep]
      rw [if_neg ht]
    rw [hstep, if_neg ht]
    exact hst1c

/-- C4 amended: the coefficients are scanned from the highest degree down,
but the scan does not stop at the first rejected term.  A coefficient of
positive degree i is dropped (replaced by an exact zero) exactly when the
bound accumulated over the already-scanned higher degrees plus its own
modulus stays certifiably below eps, so the set of dropped degrees need not
be a contiguous block of the highest degrees; and in general_economization
a rejected step leaves the scan state unchanged while the scan proceeds to
the next lower degree. -/
theorem C4_amended_scan_rule (pol : RPoly) (eps : Ball) (i : ℕ)
    (h1 : 1 ≤ i) (h2 : i ≤ natDegree pol) :
    (ccoeff (taylorEconomization pol eps) i
      = CBall.ofReal (if safeLt (Ball.add (taylorDeltaL pol eps Ball.zero
            (downSeg (natDegree pol + 1) (i + 1))) (Ball.abs (coeff pol i))) eps
          then Ball.zero else coeff pol i)) ∧
    (∀ (E : List RPoly) (eps2 : Ball) (st : Ball × RPoly) (k : ℕ),
      ¬ safeLt (Ball.add st.1 (Ball.abs (Ball.div (coeff st.2 k)
          (leadingCoeff (E.getD k []))))) eps2 = true →
      econStep E eps2 st k = st) := by
  constructor
  · have hne : pol ≠ [] := by
      intro e
      rw [e] at h2
      simp [natDegree] at h2
      omega
    have hlen := natDegree_lt_length pol hne
    obtain ⟨j, rfl⟩ : ∃ j, i = j + 1 := ⟨i - 1, by omega⟩
    unfold taylorEconomization
    simp only [ccoeff, List.getD_cons_succ]
    rw [getD_map_ofReal]
    show CBall.ofReal (coeff ((downFrom (natDegree pol + 1)).foldl
        (taylorStep pol eps) (Ball.zero, pol)).2.tail j) = _
    rw [coeff_tail]
    rw [taylor_scan_coeff pol eps (j + 1) h2 hlen]
  · intro E eps2 st k ht
    simp only [econStep]
    rw [if_neg ht]

/-- Witness for C4 amended at the concrete input of the counterexample,
where the degree-1 coefficient is dropped after degree 2 was rejected. -/
theorem C4_amended_scan_rule_w :
    (ccoeff (taylorEconomization polC1 epsC1) 1
      = CBall.ofReal (if safeLt (Ball.add (taylorDeltaL polC1 epsC1 Ball.zero
            (downSeg (natDegree polC1 + 1) (1 + 1))) (Ball.abs (coeff polC1 1))) epsC1
          then Ball.zero else coeff polC1 1)) ∧
    (∀ (E : List RPoly) (eps2 : Ball) (st : Ball × RPoly) (k : ℕ),
      ¬ safeLt (Ball.add st.1 (Ball.abs (Ball.div (coeff st.2 k)
          (leadingCoeff (E.getD k []))))) eps2 = true →
      econStep E eps2 st k = st) :=
  C4_amended_scan_rule polC1 epsC1 1 (by omega) (by decide)

/-- C9 amended: taylor_economization always returns a polynomial over the
complex ball field: every coefficient of positive degree is the complex
cast of a real ball (imaginary part the exact zero ball), and the constant
coefficient carries the accumulated truncation bound as an error radius
added to both parts, so its imaginary part has midpoint 0 and radius equal
to the magnitude bound of the accumulated delta, which is nonzero exactly
when that bound is nonzero (general_economization instead returns a real
ball polynomial, keeping the coefficient ring of its input). -/
theorem C9_amended_complex_cast (pol : RPoly) (eps : Ball) :
    (∀ i, 1 ≤ i → (ccoeff (taylorEconomization pol eps) i).im = Ball.zero) ∧
    (ccoeff (taylorEconomization pol eps) 0).im
      = ⟨0, Ball.mag (taylorDeltaL pol eps Ball.zero
          (downFrom (natDegree pol + 1)))⟩ := by
  constructor
  · intro i h1
    obtain ⟨j, rfl⟩ : ∃ j, i = j + 1 := ⟨i - 1, by omega⟩
    unfold taylorEconomization
    simp only [ccoeff, List.getD_cons_succ]
    rw [getD_map_ofReal]
    rfl
  · unfold taylorEconomization
    simp only [ccoeff, List.getD_cons_zero]
    have hdelta := foldl_taylorStep_fst pol eps
      (downFrom (natDegree pol + 1)) Ball.zero pol
    simp only [CBall.addError, CBall.ofReal, Ball.addError]
    rw [hdelta]
    simp [Ball.zero]

/-- Witness for C9 amended at a concrete input. -/
theorem C9_amended_complex_cast_w :
    (ccoeff (taylorEconomization polC1 epsC1) 1).im = Ball.zero ∧
    (ccoeff (taylorEconomization polC1 epsC1) 0).im
      = ⟨0, Ball.mag (taylorDeltaL polC1 epsC1 Ball.zero
          (downFrom (natDegree polC1 + 1)))⟩ :=
  ⟨(C9_amended_complex_cast polC1 epsC1).1 1 (by omega),
   (C9_amended_complex_cast polC1 epsC1).2⟩
